import Mathlib

/-!
Shallow embedding of the Bill Splitter program (`src/demo.py`) over exact
rationals.  Python `Decimal` values are modelled as `ℚ` (the spec requires
arbitrary-precision decimal arithmetic); strings are Lean `String`s.
The residual-distribution `while` loop of `split_evenly` /
`split_by_percentage` is modelled with explicit fuel: enough fuel is
supplied whenever the loop terminates in the Python code, and `none`
models nontermination of the loop.
-/

namespace BillSplit

/-- One minor currency unit, `Decimal('0.01')` in the source. -/
def cent : ℚ := 1 / 100

/-- The integer that `amount.quantize(Decimal('0.01'), rounding=ROUND_HALF_UP)`
scales the result to: round to the nearest multiple of 0.01, ties away from
zero (Python's `ROUND_HALF_UP`). -/
def roundInt (amount : ℚ) : ℤ :=
  if 0 ≤ amount then ⌊100 * amount + 1 / 2⌋ else -⌊-(100 * amount) + 1 / 2⌋

/-- `round_money` from `src/demo.py` line 31: quantize to 2 decimal places
with `ROUND_HALF_UP`. -/
def round_money (amount : ℚ) : ℚ := (roundInt amount : ℚ) / 100

/-- `shares[i] += d` on a Python list: out-of-range indices leave the list
unchanged (never reached in the program, where `i < len(shares)`). -/
def addAt (l : List ℚ) (i : ℕ) (d : ℚ) : List ℚ :=
  l.set i (l.getD i 0 + d)

/-- The residual-distribution loop shared by `split_evenly` (lines 84-93)
and `split_by_percentage` (lines 110-119):

    while residual != 0:
        if residual > 0: shares[i] += cent; residual -= cent
        else:            shares[i] -= cent; residual += cent
        i = (i + 1) % n

modelled with fuel; `none` means the loop did not finish. -/
def reconcile (n : ℕ) : ℕ → List ℚ → ℚ → ℕ → Option (List ℚ)
  | 0, shares, residual, _ =>
      if residual = 0 then some shares else none
  | fuel + 1, shares, residual, i =>
      if residual = 0 then some shares
      else if 0 < residual then
        reconcile n fuel (addAt shares i cent) (residual - cent) ((i + 1) % n)
      else
        reconcile n fuel (addAt shares i (-cent)) (residual + cent) ((i + 1) % n)

/-- Fuel that suffices whenever the residual is an integer multiple of one
cent (the loop then runs exactly `|residual| / cent` iterations). -/
def fuelFor (residual : ℚ) : ℕ := (⌈100 * |residual|⌉).toNat

/-- The residual update performed by one iteration of the loop body:
`residual -= cent` when positive, `residual += cent` otherwise. -/
def nextResidual (residual : ℚ) : ℚ :=
  if 0 < residual then residual - cent else residual + cent

/-- `k` consecutive loop iterations viewed on the share list alone: add `d`
at position `i`, then at `i + 1`, ..., then at `i + k - 1`. -/
def bump (d : ℚ) : List ℚ → ℕ → ℕ → List ℚ
  | shares, _, 0 => shares
  | shares, i, k + 1 => bump d (addAt shares i d) (i + 1) k

/-- The default names `["Person 1", ..., "Person n"]` generated when
`names is None`. -/
def defaultNames (n : ℕ) : List String :=
  (List.range n).map (fun i => "Person " ++ toString (i + 1))

/-- The list `[round_money(base) for _ in range(n)]` with
`base = total / Decimal(n)` (lines 77-78). -/
def evenRounded (total : ℚ) (n : ℕ) : List ℚ :=
  List.replicate n (round_money (total / (n : ℚ)))

/-- `split_evenly(total, n, names)` from `src/demo.py` lines 72-94. -/
def split_evenly (total : ℚ) (n : ℕ) (names : Option (List String)) :
    Option (List (String × ℚ)) :=
  let names := names.getD (defaultNames n)
  let rounded := evenRounded total n
  let residual := total - rounded.sum
  (reconcile n (fuelFor residual) rounded residual 0).map
    (fun shares => names.zip shares)

/-- The rounded raw shares `round_money((p / 100) * total)` of
`split_by_percentage` (lines 102-105). -/
def pctRounded (total : ℚ) (percentages : List ℚ) : List ℚ :=
  percentages.map (fun p => round_money (p / 100 * total))

/-- `split_by_percentage(total, percentages, names)` from `src/demo.py`
lines 96-120. -/
def split_by_percentage (total : ℚ) (percentages : List ℚ)
    (names : Option (List String)) : Option (List (String × ℚ)) :=
  let names := names.getD (defaultNames percentages.length)
  let shares := pctRounded total percentages
  let residual := total - shares.sum
  (reconcile percentages.length (fuelFor residual) shares residual 0).map
    (fun s => names.zip s)

/-- Python `str.strip()`: drop whitespace from both ends. -/
def stripWS (l : List Char) : List Char :=
  ((l.dropWhile Char.isWhitespace).reverse.dropWhile Char.isWhitespace).reverse

/-- `.replace(',', '').replace('$', '')` from `to_decimal` line 25: delete
every comma and every dollar sign, wherever they occur. -/
def removeSeps (l : List Char) : List Char :=
  l.filter (fun c => !(c == ',' || c == '$'))

/-- Numeric value of a digit string, most significant digit first. -/
def digitsToNat (l : List Char) : ℕ :=
  l.foldl (fun a c => 10 * a + (c.toNat - 48)) 0

/-- The optional exponent tail of Python's decimal numeric-string grammar:
empty, or `(e|E) (+|-)? digits`. Returns the signed exponent. -/
def parseExp (l : List Char) : Option ℤ :=
  match l with
  | [] => some 0
  | c :: rest =>
    if c == 'e' || c == 'E' then
      match rest with
      | '+' :: ds =>
        if !ds.isEmpty && ds.all Char.isDigit then some (digitsToNat ds) else none
      | '-' :: ds =>
        if !ds.isEmpty && ds.all Char.isDigit then some (-(digitsToNat ds : ℤ)) else none
      | ds =>
        if !ds.isEmpty && ds.all Char.isDigit then some (digitsToNat ds) else none
    else none

/-- The mantissa of Python's decimal numeric-string grammar:
`digits [. digits?] | . digits`. Returns the digit value, the number of
fractional digits, and the unconsumed tail. -/
def parseMantissa (l : List Char) : Option (ℕ × ℕ × List Char) :=
  let ip := l.takeWhile Char.isDigit
  let r1 := l.dropWhile Char.isDigit
  match r1 with
  | '.' :: r2 =>
    let fp := r2.takeWhile Char.isDigit
    let r3 := r2.dropWhile Char.isDigit
    if ip.isEmpty && fp.isEmpty then none
    else some (digitsToNat (ip ++ fp), fp.length, r3)
  | _ =>
    if ip.isEmpty then none else some (digitsToNat ip, 0, r1)

/-- Python's `Decimal(string)` constructor on finite numeric strings:
surrounding whitespace is permitted, then `(+|-)?` mantissa `exponent?`.
Malformed input raises `InvalidOperation`, modelled as `none`. -/
def parseDecimal (l : List Char) : Option ℚ :=
  let l1 := stripWS l
  let sl : ℚ × List Char :=
    match l1 with
    | '+' :: r => (1, r)
    | '-' :: r => (-1, r)
    | r => (1, r)
  match parseMantissa sl.2 with
  | none => none
  | some (m, fl, rest) =>
    match parseExp rest with
    | none => none
    | some e => some (sl.1 * (m : ℚ) * (10 : ℚ) ^ (e - (fl : ℤ)))

/-- `to_decimal(value_str)` from `src/demo.py` lines 22-29:
`Decimal(value_str.strip().replace(',', '').replace('$', ''))`, with the
`InvalidOperation` handler (`raise ValueError`) modelled as `none`. -/
def to_decimal (value_str : String) : Option ℚ :=
  parseDecimal (removeSeps (stripWS value_str.data))

/-- The percentage-sum validation and dispatch of `run_single_split`
(lines 180-185): outside the band `[100 - 0.01, 100 + 0.01]` the request is
rejected with a message carrying the actual sum (`return None`, modelled as
`Except.error total_percent`); inside it, `split_by_percentage` runs. -/
def run_percentage_split (total : ℚ) (percentages : List ℚ)
    (names : List String) : Except ℚ (Option (List (String × ℚ))) :=
  let total_percent := percentages.sum
  if 100 - cent ≤ total_percent ∧ total_percent ≤ 100 + cent then
    Except.ok (split_by_percentage total percentages (some names))
  else
    Except.error total_percent

/-! ### Basic facts about the minor unit and share updates -/

lemma cent_pos : 0 < cent := by norm_num [cent]

lemma length_addAt (l : List ℚ) (i : ℕ) (d : ℚ) :
    (addAt l i d).length = l.length := by
  simp [addAt]

lemma sum_addAt (l : List ℚ) (i : ℕ) (d : ℚ) (h : i < l.length) :
    (addAt l i d).sum = l.sum + d := by
  induction l generalizing i with
  | nil => simp at h
  | cons a t ih =>
    cases i with
    | zero => simp [addAt]; ring
    | succ j =>
      have hj : j < t.length := by simpa using h
      simp only [addAt, List.getD_cons_succ, List.set_cons_succ, List.sum_cons]
      have := ih j hj
      simp only [addAt] at this
      rw [this]
      ring

lemma getD_addAt (l : List ℚ) (i j : ℕ) (d : ℚ) (h : i < l.length) :
    (addAt l i d).getD j 0 = l.getD j 0 + (if j = i then d else 0) := by
  induction l generalizing i j with
  | nil => simp at h
  | cons a t ih =>
    cases i with
    | zero =>
      cases j with
      | zero => simp [addAt]
      | succ j' => simp [addAt]
    | succ i' =>
      have hi : i' < t.length := by simpa using h
      cases j with
      | zero => simp [addAt]
      | succ j' =>
        simp only [addAt, List.getD_cons_succ, List.set_cons_succ]
        have := ih i' j' hi
        simp only [addAt] at this
        rw [this]
        simp [Nat.succ_inj]

/-! ### Behaviour of the residual-distribution loop -/

lemma reconcile_length (n : ℕ) :
    ∀ (fuel : ℕ) (shares : List ℚ) (r : ℚ) (i : ℕ) (out : List ℚ),
      reconcile n fuel shares r i = some out → out.length = shares.length := by
  intro fuel
  induction fuel with
  | zero =>
    intro shares r i out h
    by_cases hr : r = 0 <;> simp [reconcile, hr] at h
    rw [← h]
  | succ fuel ih =>
    intro shares r i out h
    by_cases hr : r = 0
    · simp [reconcile, hr] at h
      rw [← h]
    · by_cases hp : 0 < r
      · simp only [reconcile, if_neg hr, if_pos hp] at h
        rw [ih _ _ _ _ h, length_addAt]
      · simp only [reconcile, if_neg hr, if_neg hp] at h
        rw [ih _ _ _ _ h, length_addAt]

lemma reconcile_sum (n : ℕ) (hn : 0 < n) :
    ∀ (fuel : ℕ) (shares : List ℚ) (r : ℚ) (i : ℕ) (out : List ℚ),
      shares.length = n → i < n → reconcile n fuel shares r i = some out →
      out.sum = shares.sum + r := by
  intro fuel
  induction fuel with
  | zero =>
    intro shares r i out _ _ h
    by_cases hr : r = 0 <;> simp [reconcile, hr] at h
    rw [← h, hr, add_zero]
  | succ fuel ih =>
    intro shares r i out hlen hi h
    by_cases hr : r = 0
    · simp [reconcile, hr] at h
      rw [← h, hr, add_zero]
    · have hilen : i < shares.length := by rw [hlen]; exact hi
      have hmod : (i + 1) % n < n := Nat.mod_lt _ hn
      by_cases hp : 0 < r
      · simp only [reconcile, if_neg hr, if_pos hp] at h
        have := ih _ _ _ _ (by rw [length_addAt, hlen]) hmod h
        rw [this, sum_addAt _ _ _ hilen]
        ring
      · simp only [reconcile, if_neg hr, if_neg hp] at h
        have := ih _ _ _ _ (by rw [length_addAt, hlen]) hmod h
        rw [this, sum_addAt _ _ _ hilen]
        ring

lemma reconcile_total (n : ℕ) :
    ∀ (fuel : ℕ) (k : ℤ) (shares : List ℚ) (i : ℕ), k.natAbs ≤ fuel →
      (reconcile n fuel shares ((k : ℚ) * cent) i).isSome := by
  intro fuel
  induction fuel with
  | zero =>
    intro k shares i hk
    have : k = 0 := by omega
    simp [reconcile, this]
  | succ fuel ih =>
    intro k shares i hk
    by_cases h0 : k = 0
    · simp [reconcile, h0]
    · by_cases hp : 0 < k
      · have hrpos : 0 < (k : ℚ) * cent :=
          mul_pos (by exact_mod_cast hp) cent_pos
        have harg : (k : ℚ) * cent - cent = ((k - 1 : ℤ) : ℚ) * cent := by
          push_cast
          ring
        simp only [reconcile, if_neg (ne_of_gt hrpos), if_pos hrpos, harg]
        exact ih (k - 1) _ _ (by omega)
      · have hneg : (k : ℚ) * cent < 0 := by
          have : (k : ℚ) < 0 := by exact_mod_cast (by omega : k < 0)
          exact mul_neg_of_neg_of_pos this cent_pos
        have harg : (k : ℚ) * cent + cent = ((k + 1 : ℤ) : ℚ) * cent := by
          push_cast
          ring
        simp only [reconcile, if_neg (ne_of_lt hneg), if_neg (not_lt.mpr (le_of_lt hneg)),
          harg]
        exact ih (k + 1) _ _ (by omega)

lemma fuelFor_mul_cent (k : ℤ) : fuelFor ((k : ℚ) * cent) = k.natAbs := by
  have h1 : (100 : ℚ) * |(k : ℚ) * cent| = ((|k| : ℤ) : ℚ) := by
    rw [abs_mul, abs_of_pos cent_pos]
    push_cast [abs_mul]
    simp [cent]
    ring
  have h2 : ⌈(100 : ℚ) * |(k : ℚ) * cent|⌉ = |k| := by
    rw [h1, Int.ceil_intCast]
  unfold fuelFor
  rw [h2, Int.abs_eq_natAbs]
  omega

/-! ### Rounded values are integer multiples of the minor unit -/

lemma round_money_eq_mul_cent (q : ℚ) :
    round_money q = (roundInt q : ℚ) * cent := by
  rw [round_money, cent]
  ring

lemma round_money_intCast (k : ℤ) :
    round_money ((k : ℚ) * cent) = (k : ℚ) * cent := by
  have hhalf : ⌊(1 : ℚ) / 2⌋ = 0 := by norm_num
  rcases le_or_lt 0 k with hk | hk
  · have hq : (0 : ℚ) ≤ (k : ℚ) * cent :=
      mul_nonneg (by exact_mod_cast hk) (le_of_lt cent_pos)
    have harg : (100 : ℚ) * ((k : ℚ) * cent) + 1 / 2 = (k : ℚ) + 1 / 2 := by
      rw [cent]
      ring
    rw [round_money, roundInt, if_pos hq, harg, Int.floor_int_add, hhalf, add_zero]
    rw [cent]
    ring
  · have hq : ¬ (0 : ℚ) ≤ (k : ℚ) * cent := by
      push_neg
      exact mul_neg_of_neg_of_pos (by exact_mod_cast hk) cent_pos
    have harg : -((100 : ℚ) * ((k : ℚ) * cent)) + 1 / 2 = ((-k : ℤ) : ℚ) + 1 / 2 := by
      rw [cent]
      push_cast
      ring
    rw [round_money, roundInt, if_neg hq, harg, Int.floor_int_add, hhalf, add_zero]
    rw [cent]
    push_cast
    ring

lemma sum_multiple_cent :
    ∀ (l : List ℚ), (∀ x ∈ l, ∃ k : ℤ, x = (k : ℚ) * cent) →
      ∃ m : ℤ, l.sum = (m : ℚ) * cent := by
  intro l
  induction l with
  | nil => exact fun _ => ⟨0, by simp⟩
  | cons a t ih =>
    intro h
    obtain ⟨k, hk⟩ := h a (List.mem_cons_self a t)
    obtain ⟨m, hm⟩ := ih (fun x hx => h x (List.mem_cons_of_mem a hx))
    refine ⟨k + m, ?_⟩
    rw [List.sum_cons, hk, hm]
    push_cast
    ring

lemma evenRounded_length (total : ℚ) (n : ℕ) :
    (evenRounded total n).length = n := by
  simp [evenRounded]

lemma evenRounded_multiple (total : ℚ) (n : ℕ) :
    ∃ m : ℤ, (evenRounded total n).sum = (m : ℚ) * cent := by
  apply sum_multiple_cent
  intro x hx
  rw [List.eq_of_mem_replicate hx]
  exact ⟨roundInt _, round_money_eq_mul_cent _⟩

lemma pctRounded_length (total : ℚ) (ps : List ℚ) :
    (pctRounded total ps).length = ps.length := by
  simp [pctRounded]

lemma pctRounded_multiple (total : ℚ) (ps : List ℚ) :
    ∃ m : ℤ, (pctRounded total ps).sum = (m : ℚ) * cent := by
  apply sum_multiple_cent
  intro x hx
  obtain ⟨p, _, hp⟩ := List.mem_map.mp hx
  rw [← hp]
  exact ⟨roundInt _, round_money_eq_mul_cent _⟩

lemma residual_multiple (total s : ℚ) (h2 : ∃ k : ℤ, total = (k : ℚ) * cent)
    (hs : ∃ m : ℤ, s = (m : ℚ) * cent) :
    ∃ r : ℤ, total - s = (r : ℚ) * cent := by
  obtain ⟨k, hk⟩ := h2
  obtain ⟨m, hm⟩ := hs
  refine ⟨k - m, ?_⟩
  rw [hk, hm]
  push_cast
  ring

/-- Core reconciliation result: with the fuel the embedding supplies, the
loop finishes, preserves the share count and restores the exact sum. -/
lemma reconciled_core (n : ℕ) (hn : 0 < n) (shares0 : List ℚ) (total : ℚ)
    (hlen : shares0.length = n)
    (hres : ∃ k : ℤ, total - shares0.sum = (k : ℚ) * cent) :
    ∃ s, reconcile n (fuelFor (total - shares0.sum)) shares0
          (total - shares0.sum) 0 = some s ∧
        s.length = n ∧ s.sum = total := by
  obtain ⟨k, hk⟩ := hres
  have hfuel : fuelFor (total - shares0.sum) = k.natAbs := by
    rw [hk, fuelFor_mul_cent]
  have hsome := reconcile_total n (fuelFor (total - shares0.sum)) k shares0 0
    (by rw [hfuel])
  rw [← hk] at hsome
  obtain ⟨s, hs⟩ := Option.isSome_iff_exists.mp hsome
  refine ⟨s, hs, ?_, ?_⟩
  · rw [reconcile_length n _ _ _ _ _ hs, hlen]
  · rw [reconcile_sum n hn _ _ _ _ _ hlen hn hs]
    ring

/-- `split_evenly` with explicit names, unfolded to its reconcile call. -/
lemma split_evenly_some_eq (total : ℚ) (n : ℕ) (names : List String) :
    split_evenly total n (some names) =
      (reconcile n (fuelFor (total - (evenRounded total n).sum))
          (evenRounded total n) (total - (evenRounded total n).sum) 0).map
        (fun shares => names.zip shares) := rfl

lemma split_evenly_none_eq (total : ℚ) (n : ℕ) :
    split_evenly total n none =
      (reconcile n (fuelFor (total - (evenRounded total n).sum))
          (evenRounded total n) (total - (evenRounded total n).sum) 0).map
        (fun shares => (defaultNames n).zip shares) := rfl

lemma split_by_percentage_some_eq (total : ℚ) (ps : List ℚ) (names : List String) :
    split_by_percentage total ps (some names) =
      (reconcile ps.length (fuelFor (total - (pctRounded total ps).sum))
          (pctRounded total ps) (total - (pctRounded total ps).sum) 0).map
        (fun shares => names.zip shares) := rfl

lemma split_by_percentage_none_eq (total : ℚ) (ps : List ℚ) :
    split_by_percentage total ps none =
      (reconcile ps.length (fuelFor (total - (pctRounded total ps).sum))
          (pctRounded total ps) (total - (pctRounded total ps).sum) 0).map
        (fun shares => (defaultNames ps.length).zip shares) := rfl

/-! ### Round-robin structure of the residual distribution -/

lemma reconcile_pos_run (n : ℕ) :
    ∀ (k fuel : ℕ) (shares : List ℚ) (i : ℕ),
      shares.length = n → i + k ≤ n → k ≤ fuel →
      reconcile n fuel shares ((k : ℚ) * cent) i = some (bump cent shares i k) := by
  intro k
  induction k with
  | zero =>
    intro fuel shares i _ _ _
    cases fuel <;> simp [reconcile, bump]
  | succ k ih =>
    intro fuel shares i hlen hik hfuel
    obtain ⟨fuel, rfl⟩ : ∃ f, fuel = f + 1 := ⟨fuel - 1, by omega⟩
    have hrpos : 0 < ((k + 1 : ℕ) : ℚ) * cent := by
      apply mul_pos _ cent_pos
      exact_mod_cast Nat.succ_pos k
    have harg : ((k + 1 : ℕ) : ℚ) * cent - cent = ((k : ℕ) : ℚ) * cent := by
      push_cast
      ring
    rw [show reconcile n (fuel + 1) shares (((k + 1 : ℕ) : ℚ) * cent) i =
        reconcile n fuel (addAt shares i cent) (((k + 1 : ℕ) : ℚ) * cent - cent)
          ((i + 1) % n) from by
      simp only [reconcile, if_neg (ne_of_gt hrpos), if_pos hrpos]]
    rw [harg]
    show _ = some (bump cent (addAt shares i cent) (i + 1) k)
    by_cases hk : k = 0
    · subst hk
      simp only [Nat.cast_zero, zero_mul]
      cases fuel <;> simp [reconcile, bump]
    · have hi1 : i + 1 < n := by omega
      rw [Nat.mod_eq_of_lt hi1]
      exact ih fuel (addAt shares i cent) (i + 1)
        (by rw [length_addAt, hlen]) (by omega) (by omega)

lemma reconcile_neg_run (n : ℕ) :
    ∀ (k fuel : ℕ) (shares : List ℚ) (i : ℕ),
      shares.length = n → i + k ≤ n → k ≤ fuel →
      reconcile n fuel shares (-(((k : ℕ) : ℚ) * cent)) i =
        some (bump (-cent) shares i k) := by
  intro k
  induction k with
  | zero =>
    intro fuel shares i _ _ _
    cases fuel <;> simp [reconcile, bump]
  | succ k ih =>
    intro fuel shares i hlen hik hfuel
    obtain ⟨fuel, rfl⟩ : ∃ f, fuel = f + 1 := ⟨fuel - 1, by omega⟩
    have hrneg : -(((k + 1 : ℕ) : ℚ) * cent) < 0 := by
      rw [neg_lt_zero]
      apply mul_pos _ cent_pos
      exact_mod_cast Nat.succ_pos k
    have harg : -(((k + 1 : ℕ) : ℚ) * cent) + cent = -(((k : ℕ) : ℚ) * cent) := by
      push_cast
      ring
    rw [show reconcile n (fuel + 1) shares (-(((k + 1 : ℕ) : ℚ) * cent)) i =
        reconcile n fuel (addAt shares i (-cent))
          (-(((k + 1 : ℕ) : ℚ) * cent) + cent) ((i + 1) % n) from by
      simp only [reconcile, if_neg (ne_of_lt hrneg),
        if_neg (not_lt.mpr (le_of_lt hrneg))]]
    rw [harg]
    show _ = some (bump (-cent) (addAt shares i (-cent)) (i + 1) k)
    by_cases hk : k = 0
    · subst hk
      simp only [Nat.cast_zero, zero_mul, neg_zero]
      cases fuel <;> simp [reconcile, bump]
    · have hi1 : i + 1 < n := by omega
      rw [Nat.mod_eq_of_lt hi1]
      exact ih fuel (addAt shares i (-cent)) (i + 1)
        (by rw [length_addAt, hlen]) (by omega) (by omega)

lemma getD_bump (d : ℚ) :
    ∀ (k : ℕ) (shares : List ℚ) (i j : ℕ), i + k ≤ shares.length →
      (bump d shares i k).getD j 0 =
        shares.getD j 0 + (if i ≤ j ∧ j < i + k then d else 0) := by
  intro k
  induction k with
  | zero =>
    intro shares i j _
    rw [bump, if_neg (by omega), add_zero]
  | succ k ih =>
    intro shares i j h
    show (bump d (addAt shares i d) (i + 1) k).getD j 0 = _
    rw [ih (addAt shares i d) (i + 1) j (by rw [length_addAt]; omega)]
    rw [getD_addAt shares i j d (by omega)]
    split_ifs <;> first | ring1 | (exfalso; omega)

lemma floor_add_half_gt (x : ℚ) : x - 1 / 2 < (⌊x + 1 / 2⌋ : ℚ) := by
  have := Int.lt_floor_add_one (x + 1 / 2)
  linarith

lemma floor_add_half_le (x : ℚ) : ((⌊x + 1 / 2⌋ : ℚ)) ≤ x + 1 / 2 :=
  Int.floor_le _

/-! ### The claims -/

/-- C1: for every valid allocation request (total ≥ 0 with at most two
decimal places, n ≥ 1, names matching, and in percentage mode percentages
summing to 100 within ±0.01), the share lists returned by `split_evenly`
and `split_by_percentage` sum exactly to `round_money total`. -/
theorem C1_exact_sum (total : ℚ) (n : ℕ) (names : List String) (ps : List ℚ)
    (h0 : 0 ≤ total) (h2 : ∃ k : ℤ, total = (k : ℚ) * cent) (hn : 0 < n)
    (hnames : names.length = n) (hps : ps.length = n)
    (hband : 100 - cent ≤ ps.sum ∧ ps.sum ≤ 100 + cent) :
    (∃ out, split_evenly total n (some names) = some out ∧
      (out.map Prod.snd).sum = round_money total) ∧
    (∃ out, split_by_percentage total ps (some names) = some out ∧
      (out.map Prod.snd).sum = round_money total) := by
  obtain ⟨k, hk⟩ := h2
  have hround : round_money total = total := by
    rw [hk]
    exact round_money_intCast k
  constructor
  · obtain ⟨s, hs, hslen, hssum⟩ := reconciled_core n hn (evenRounded total n) total
      (evenRounded_length total n)
      (residual_multiple _ _ ⟨k, hk⟩ (evenRounded_multiple total n))
    refine ⟨names.zip s, ?_, ?_⟩
    · rw [split_evenly_some_eq, hs]
      rfl
    · rw [List.map_snd_zip names s (by rw [hslen, hnames]), hssum, hround]
  · obtain ⟨s, hs, hslen, hssum⟩ := reconciled_core ps.length
      (by rw [hps]; exact hn) (pctRounded total ps) total
      (pctRounded_length total ps)
      (residual_multiple _ _ ⟨k, hk⟩ (pctRounded_multiple total ps))
    refine ⟨names.zip s, ?_, ?_⟩
    · rw [split_by_percentage_some_eq, hs]
      rfl
    · rw [List.map_snd_zip names s (by rw [hslen, hps, hnames]), hssum, hround]

/-- Witness for C1 at total = 100.00, n = 3, percentages 33 / 33 / 34. -/
theorem C1_exact_sum_witness :
    (∃ out, split_evenly 100 3 (some ["a", "b", "c"]) = some out ∧
      (out.map Prod.snd).sum = round_money 100) ∧
    (∃ out, split_by_percentage 100 [33, 33, 34] (some ["a", "b", "c"]) = some out ∧
      (out.map Prod.snd).sum = round_money 100) :=
  C1_exact_sum 100 3 ["a", "b", "c"] [33, 33, 34] (by norm_num)
    ⟨10000, by norm_num [cent]⟩ (by norm_num) rfl rfl (by norm_num [cent])

/-- C2: for every valid allocation request, the residual entering the loop
of `split_evenly` and `split_by_percentage` is an integer multiple of one
cent, each iteration keeps it an integer multiple while strictly decreasing
its absolute value by exactly one cent, and consequently both loops
terminate (the embedded functions return `some`). -/
theorem C2_residual_invariant (total : ℚ) (n : ℕ) (ps : List ℚ)
    (h2 : ∃ k : ℤ, total = (k : ℚ) * cent) (hn : 0 < n) (hps : ps.length = n) :
    (∃ k : ℤ, total - (evenRounded total n).sum = (k : ℚ) * cent) ∧
    (∃ k : ℤ, total - (pctRounded total ps).sum = (k : ℚ) * cent) ∧
    (∀ (r : ℚ) (k : ℤ), r = (k : ℚ) * cent → r ≠ 0 →
      (∃ kk : ℤ, nextResidual r = (kk : ℚ) * cent ∧ kk.natAbs + 1 = k.natAbs) ∧
      |nextResidual r| = |r| - cent) ∧
    (∀ (m fuel : ℕ) (shares : List ℚ) (r : ℚ) (i : ℕ), r ≠ 0 →
      reconcile m (fuel + 1) shares r i =
        reconcile m fuel (addAt shares i (if 0 < r then cent else -cent))
          (nextResidual r) ((i + 1) % m)) ∧
    (split_evenly total n none).isSome ∧
    (split_by_percentage total ps none).isSome := by
  refine ⟨residual_multiple _ _ h2 (evenRounded_multiple total n),
    residual_multiple _ _ h2 (pctRounded_multiple total ps), ?_, ?_, ?_, ?_⟩
  · intro r k hrk hr0
    have hk0 : k ≠ 0 := by
      rintro rfl
      rw [hrk] at hr0
      simp at hr0
    rcases lt_or_gt_of_ne hk0 with hk | hk
    · have hrneg : r < 0 := by
        rw [hrk]
        exact mul_neg_of_neg_of_pos (by exact_mod_cast hk) cent_pos
      have hnext : nextResidual r = ((k + 1 : ℤ) : ℚ) * cent := by
        rw [nextResidual, if_neg (not_lt.mpr (le_of_lt hrneg)), hrk]
        push_cast
        ring
      refine ⟨⟨k + 1, hnext, by omega⟩, ?_⟩
      have h1 : ((k + 1 : ℤ) : ℚ) * cent ≤ 0 :=
        mul_nonpos_of_nonpos_of_nonneg (by exact_mod_cast (by omega : k + 1 ≤ 0))
          (le_of_lt cent_pos)
      rw [hnext, abs_of_nonpos h1, hrk, abs_of_neg
        (mul_neg_of_neg_of_pos (by exact_mod_cast hk) cent_pos)]
      push_cast
      ring
    · have hrpos : 0 < r := by
        rw [hrk]
        exact mul_pos (by exact_mod_cast hk) cent_pos
      have hnext : nextResidual r = ((k - 1 : ℤ) : ℚ) * cent := by
        rw [nextResidual, if_pos hrpos, hrk]
        push_cast
        ring
      refine ⟨⟨k - 1, hnext, by omega⟩, ?_⟩
      have h1 : (0 : ℚ) ≤ ((k - 1 : ℤ) : ℚ) * cent :=
        mul_nonneg (by exact_mod_cast (by omega : 0 ≤ k - 1)) (le_of_lt cent_pos)
      rw [hnext, abs_of_nonneg h1, hrk, abs_of_pos
        (mul_pos (by exact_mod_cast hk) cent_pos)]
      push_cast
      ring
  · intro m fuel shares r i hr0
    by_cases hp : 0 < r <;> simp [reconcile, nextResidual, hr0, hp]
  · obtain ⟨s, hs, _, _⟩ := reconciled_core n hn (evenRounded total n) total
      (evenRounded_length total n)
      (residual_multiple _ _ h2 (evenRounded_multiple total n))
    rw [split_evenly_none_eq, hs]
    rfl
  · obtain ⟨s, hs, _, _⟩ := reconciled_core ps.length (by rw [hps]; exact hn)
      (pctRounded total ps) total (pctRounded_length total ps)
      (residual_multiple _ _ h2 (pctRounded_multiple total ps))
    rw [split_by_percentage_none_eq, hs]
    rfl

/-- Witness for C2 at total = 100.00, n = 3, percentages 33 / 33 / 34,
with the step property instantiated at residual 0.01. -/
theorem C2_residual_invariant_witness :
    (split_evenly 100 3 none).isSome ∧
    (split_by_percentage 100 [33, 33, 34] none).isSome ∧
    |nextResidual cent| = |cent| - cent := by
  have h := C2_residual_invariant 100 3 [33, 33, 34]
    ⟨10000, by norm_num [cent]⟩ (by norm_num) rfl
  exact ⟨h.2.2.2.2.1, h.2.2.2.2.2,
    (h.2.2.1 cent 1 (by norm_num) (by norm_num [cent])).2⟩

/-- C3: a residual of `k` cents (either sign) is distributed in fixed
round-robin order starting at index 0, one cent per step, so the first `k`
participants in the list absorb the rounding gain/loss while the rest are
untouched; in particular, total = 100.00 with n = 3 in even mode yields
shares [33.34, 33.33, 33.33]. -/
theorem C3_round_robin_order (n k fuel : ℕ) (shares : List ℚ)
    (hlen : shares.length = n) (hk : k ≤ n) (hfuel : k ≤ fuel) :
    reconcile n fuel shares ((k : ℚ) * cent) 0 = some (bump cent shares 0 k) ∧
    reconcile n fuel shares (-((k : ℚ) * cent)) 0 =
      some (bump (-cent) shares 0 k) ∧
    (∀ j : ℕ, (bump cent shares 0 k).getD j 0 =
      shares.getD j 0 + (if j < k then cent else 0)) ∧
    (∀ j : ℕ, (bump (-cent) shares 0 k).getD j 0 =
      shares.getD j 0 + (if j < k then -cent else 0)) ∧
    split_evenly 100 3 none =
      some [("Person 1", 33.34), ("Person 2", 33.33), ("Person 3", 33.33)] := by
  refine ⟨reconcile_pos_run n k fuel shares 0 hlen (by omega) hfuel,
    reconcile_neg_run n k fuel shares 0 hlen (by omega) hfuel, ?_, ?_, ?_⟩
  · intro j
    rw [getD_bump cent k shares 0 j (by omega)]
    simp [Nat.zero_le]
  · intro j
    rw [getD_bump (-cent) k shares 0 j (by omega)]
    simp [Nat.zero_le]
  · have h1 : round_money ((100 : ℚ) / ((3 : ℕ) : ℚ)) = 33.33 := by
      norm_num [round_money, roundInt, Int.floor_eq_iff]
    have h2 : (100 : ℚ) - (33.33 + (33.33 + (33.33 + 0))) = 1 / 100 := by
      norm_num
    have h3 : reconcile 3 (fuelFor (1 / 100)) [(33.33 : ℚ), 33.33, 33.33] (1 / 100) 0 =
        some [1667 / 50, 3333 / 100, 3333 / 100] := by
      have habs : (100 : ℚ) * |1 / 100| = 1 := by
        rw [abs_of_pos (by norm_num : (0 : ℚ) < 1 / 100)]
        norm_num
      have hf : fuelFor (1 / 100 : ℚ) = 1 := by
        rw [fuelFor, habs]
        simp
      rw [hf]
      norm_num [reconcile, addAt, cent]
    have h4 : defaultNames 3 = ["Person 1", "Person 2", "Person 3"] := by decide
    simp only [split_evenly, evenRounded, h1, List.replicate, List.sum_cons,
      List.sum_nil, h2, h3, Option.getD_none, h4, Option.map_some']
    norm_num [List.zip]

/-- Witness for C3: one cent of residual over three equal shares goes to
the first participant, and the concrete 100.00 / 3 scenario. -/
theorem C3_round_robin_order_witness :
    (bump cent [(33.33 : ℚ), 33.33, 33.33] 0 1).getD 0 0 =
      [(33.33 : ℚ), 33.33, 33.33].getD 0 0 + (if 0 < 1 then cent else 0) ∧
    split_evenly 100 3 none =
      some [("Person 1", 33.34), ("Person 2", 33.33), ("Person 3", 33.33)] := by
  have h := C3_round_robin_order 3 1 1 [(33.33 : ℚ), 33.33, 33.33] rfl
    (by omega) (by omega)
  exact ⟨h.2.2.1 0, h.2.2.2.2⟩

/-- C4: when the supplied percentages sum to a value outside
[100 − 0.01, 100 + 0.01], the percentage path of `run_single_split` fails
carrying the actual sum and produces no allocation result; inside the band
it succeeds with an allocation. -/
theorem C4_percentage_band (total : ℚ) (ps : List ℚ) (names : List String)
    (h2 : ∃ k : ℤ, total = (k : ℚ) * cent) :
    (¬ (100 - cent ≤ ps.sum ∧ ps.sum ≤ 100 + cent) →
      run_percentage_split total ps names = Except.error ps.sum) ∧
    ((100 - cent ≤ ps.sum ∧ ps.sum ≤ 100 + cent) →
      ∃ out, run_percentage_split total ps names = Except.ok (some out)) := by
  constructor
  · intro hout
    simp only [run_percentage_split, if_neg hout]
  · intro hin
    have hne : ps ≠ [] := by
      rintro rfl
      have h1 := hin.1
      rw [List.sum_nil] at h1
      norm_num [cent] at h1
    have hlen : 0 < ps.length := List.length_pos.mpr hne
    obtain ⟨s, hs, _, _⟩ := reconciled_core ps.length hlen (pctRounded total ps)
      total (pctRounded_length total ps)
      (residual_multiple _ _ h2 (pctRounded_multiple total ps))
    refine ⟨names.zip s, ?_⟩
    simp only [run_percentage_split, if_pos hin]
    rw [split_by_percentage_some_eq, hs]
    rfl

/-- Witness for C4: percentages [40, 40, 19] (sum 99) are rejected with the
sum 99, while [50, 50] on total 50.00 succeeds. -/
theorem C4_percentage_band_witness :
    run_percentage_split 50 [40, 40, 19] ["a", "b", "c"] =
      Except.error ([(40 : ℚ), 40, 19].sum) ∧
    ∃ out, run_percentage_split 50 [(50 : ℚ), 50] ["a", "b"] =
      Except.ok (some out) := by
  constructor
  · exact (C4_percentage_band 50 [40, 40, 19] ["a", "b", "c"]
      ⟨5000, by norm_num [cent]⟩).1 (by norm_num [cent])
  · exact (C4_percentage_band 50 [(50 : ℚ), 50] ["a", "b"]
      ⟨5000, by norm_num [cent]⟩).2 (by norm_num [cent])

/-- C5: `round_money` returns a multiple of 0.01 within half a cent of its
argument, and at an exact tie it moves away from zero (so 0.125 rounds to
0.13 and −0.125 to −0.13, unlike banker's rounding, which would pick 0.12). -/
theorem C5_round_half_up :
    (∀ q : ℚ, (∃ k : ℤ, round_money q = (k : ℚ) * cent) ∧
      |round_money q - q| ≤ cent / 2 ∧
      (|round_money q - q| = cent / 2 → |q| < |round_money q|)) ∧
    round_money (0.125 : ℚ) = 0.13 ∧ round_money (-0.125 : ℚ) = -0.13 := by
  have hc : cent = 1 / 100 := rfl
  refine ⟨?_, ?_, ?_⟩
  · intro q
    refine ⟨⟨roundInt q, round_money_eq_mul_cent q⟩, ?_⟩
    rcases le_or_lt 0 q with hq | hq
    · have hr : round_money q = (⌊100 * q + 1 / 2⌋ : ℚ) / 100 := by
        rw [round_money, roundInt, if_pos hq]
      have h1 := floor_add_half_gt (100 * q)
      have h2 := floor_add_half_le (100 * q)
      constructor
      · rw [hr, abs_le]
        constructor
        · rw [hc]
          linarith
        · rw [hc]
          linarith
      · intro htie
        rcases (abs_eq (by rw [hc]; norm_num : (0 : ℚ) ≤ cent / 2)).mp htie with
          heq | heq
        · have hgt : q < round_money q := by
            rw [hc] at heq
            linarith
          rw [abs_of_nonneg hq, abs_of_nonneg (le_of_lt (lt_of_le_of_lt hq hgt))]
          exact hgt
        · exfalso
          rw [hr, hc] at heq
          linarith
    · have hr : round_money q = -((⌊-(100 * q) + 1 / 2⌋ : ℚ) / 100) := by
        rw [round_money, roundInt, if_neg (not_le.mpr hq)]
        push_cast
        ring
      have h1 := floor_add_half_gt (-(100 * q))
      have h2 := floor_add_half_le (-(100 * q))
      constructor
      · rw [hr, abs_le]
        constructor
        · rw [hc]
          linarith
        · rw [hc]
          linarith
      · intro htie
        rcases (abs_eq (by rw [hc]; norm_num : (0 : ℚ) ≤ cent / 2)).mp htie with
          heq | heq
        · exfalso
          rw [hr, hc] at heq
          linarith
        · have hlt : round_money q < q := by
            rw [hc] at heq
            linarith
          rw [abs_of_neg hq, abs_of_neg (lt_trans hlt hq)]
          linarith
  · norm_num [round_money, roundInt, Int.floor_eq_iff]
  · norm_num [round_money, roundInt, Int.floor_eq_iff]

/-- Witness for C5: the input 0.125 is an exact tie, and `round_money`
moves it away from zero. -/
theorem C5_round_half_up_witness :
    |(0.125 : ℚ)| < |round_money (0.125 : ℚ)| ∧
    round_money (0.125 : ℚ) = 0.13 := by
  have h := C5_round_half_up
  refine ⟨(h.1 (0.125 : ℚ)).2.2 ?_, h.2.1⟩
  rw [h.2.1]
  norm_num [cent]

/-- C6: for n = 1 the even split returns the single rounded total, the
reconciliation residual is zero, and in particular total = 10.00 yields
the single share [10.00]. -/
theorem C6_single_participant (total : ℚ) (name : String) (h0 : 0 ≤ total)
    (h2 : ∃ k : ℤ, total = (k : ℚ) * cent) :
    split_evenly total 1 (some [name]) = some [(name, round_money total)] ∧
    round_money total = total ∧
    total - (evenRounded total 1).sum = 0 ∧
    split_evenly 10 1 none = some [("Person 1", 10)] := by
  obtain ⟨k, hk⟩ := h2
  have hround : round_money total = total := by
    rw [hk]
    exact round_money_intCast k
  have h1 : evenRounded total 1 = [total] := by
    simp [evenRounded, hround]
  have hres : total - (evenRounded total 1).sum = 0 := by
    rw [h1]
    simp
  refine ⟨?_, hround, hres, ?_⟩
  · rw [split_evenly_some_eq, h1]
    have hs : total - [total].sum = 0 := by simp
    rw [hs]
    have hf : fuelFor (0 : ℚ) = 0 := by simp [fuelFor]
    rw [hf]
    simp [reconcile, hround]
  · have ha : round_money (10 : ℚ) = 10 := by
      norm_num [round_money, roundInt, Int.floor_eq_iff]
    have hb : evenRounded 10 1 = [10] := by
      simp [evenRounded, ha]
    rw [split_evenly_none_eq, hb]
    have hs : (10 : ℚ) - [(10 : ℚ)].sum = 0 := by simp
    rw [hs]
    have hf : fuelFor (0 : ℚ) = 0 := by simp [fuelFor]
    rw [hf]
    have hd : defaultNames 1 = ["Person 1"] := by decide
    simp [reconcile, hd]

/-- Witness for C6 at total = 10.00. -/
theorem C6_single_participant_witness :
    split_evenly 10 1 (some ["a"]) = some [("a", round_money 10)] ∧
    round_money 10 = 10 := by
  have h := C6_single_participant 10 "a" (by norm_num) ⟨1000, by norm_num [cent]⟩
  exact ⟨h.1, h.2.1⟩

/-- C7: for every valid request with participant count n, a names list of
length n and (in percentage mode) n percentages, the returned allocation
holds exactly n (name, share) pairs. -/
theorem C7_share_count (total : ℚ) (n : ℕ) (names : List String) (ps : List ℚ)
    (h2 : ∃ k : ℤ, total = (k : ℚ) * cent) (hn : 0 < n)
    (hnames : names.length = n) (hps : ps.length = n) :
    (split_evenly total n (some names)).map List.length = some n ∧
    (split_by_percentage total ps (some names)).map List.length = some n := by
  constructor
  · obtain ⟨s, hs, hslen, _⟩ := reconciled_core n hn (evenRounded total n) total
      (evenRounded_length total n)
      (residual_multiple _ _ h2 (evenRounded_multiple total n))
    rw [split_evenly_some_eq, hs]
    simp [List.length_zip, hslen, hnames]
  · obtain ⟨s, hs, hslen, _⟩ := reconciled_core ps.length (by rw [hps]; exact hn)
      (pctRounded total ps) total (pctRounded_length total ps)
      (residual_multiple _ _ h2 (pctRounded_multiple total ps))
    rw [split_by_percentage_some_eq, hs]
    simp [List.length_zip, hslen, hps, hnames]

/-- Witness for C7 at total = 100.00, n = 3. -/
theorem C7_share_count_witness :
    (split_evenly 100 3 (some ["a", "b", "c"])).map List.length = some 3 ∧
    (split_by_percentage 100 [33, 33, 34] (some ["a", "b", "c"])).map
      List.length = some 3 :=
  C7_share_count 100 3 ["a", "b", "c"] [33, 33, 34]
    ⟨10000, by norm_num [cent]⟩ (by norm_num) rfl rfl

/-- C9: when the names list length differs from n (even mode) or from the
number of percentages, the functions do not fail: the zip truncates, so the
result length is the minimum of the two lengths. -/
theorem C9_zip_truncates (total : ℚ) (n : ℕ) (names : List String) (ps : List ℚ)
    (h2 : ∃ k : ℤ, total = (k : ℚ) * cent) (hn : 0 < n) (hps : ps.length = n) :
    (split_evenly total n (some names)).map List.length =
      some (min names.length n) ∧
    (split_by_percentage total ps (some names)).map List.length =
      some (min names.length n) := by
  constructor
  · obtain ⟨s, hs, hslen, _⟩ := reconciled_core n hn (evenRounded total n) total
      (evenRounded_length total n)
      (residual_multiple _ _ h2 (evenRounded_multiple total n))
    rw [split_evenly_some_eq, hs]
    simp [List.length_zip, hslen]
  · obtain ⟨s, hs, hslen, _⟩ := reconciled_core ps.length (by rw [hps]; exact hn)
      (pctRounded total ps) total (pctRounded_length total ps)
      (residual_multiple _ _ h2 (pctRounded_multiple total ps))
    rw [split_by_percentage_some_eq, hs]
    simp [List.length_zip, hslen, hps]

/-- Witness for C9: one name for a three-way split produces one pair. -/
theorem C9_zip_truncates_witness :
    (split_evenly 100 3 (some ["a"])).map List.length =
      some (min ["a"].length 3) ∧
    (split_by_percentage 100 [33, 33, 34] (some ["a"])).map List.length =
      some (min ["a"].length 3) :=
  C9_zip_truncates 100 3 ["a"] [33, 33, 34]
    ⟨10000, by norm_num [cent]⟩ (by norm_num) rfl

/-- C8: `to_decimal` strips surrounding whitespace, thousands separators
and a leading currency symbol and returns the parsed decimal value; on
non-numeric or malformed input it fails (returns no value); syntactically
negative values are accepted by the parser itself. -/
theorem C8_parser_contract :
    to_decimal " $1,234.50 " = some (2469 / 2) ∧
    to_decimal " 42 " = some 42 ∧
    to_decimal "abc" = none ∧
    to_decimal "" = none ∧
    to_decimal "12.3.4" = none ∧
    to_decimal "-5.25" = some (-(21 / 4)) := by
  refine ⟨?_, ?_, by decide, by decide, by decide, ?_⟩
  · have h : to_decimal " $1,234.50 " =
        some ((1 : ℚ) * ((123450 : ℕ) : ℚ) * (10 : ℚ) ^ ((0 : ℤ) - ((2 : ℕ) : ℤ))) := by
      rfl
    rw [h]
    norm_num
  · have h : to_decimal " 42 " =
        some ((1 : ℚ) * ((42 : ℕ) : ℚ) * (10 : ℚ) ^ ((0 : ℤ) - ((0 : ℕ) : ℤ))) := by
      rfl
    rw [h]
    norm_num
  · have h : to_decimal "-5.25" =
        some ((-1 : ℚ) * ((525 : ℕ) : ℚ) * (10 : ℚ) ^ ((0 : ℤ) - ((2 : ℕ) : ℤ))) := by
      rfl
    rw [h]
    norm_num

/-- C10: `to_decimal` deletes every comma and dollar sign at any position
(not only leading symbols or thousands positions), so malformed-looking
inputs such as "1,2$3" parse to a value (123) instead of failing. -/
theorem C10_separator_removal :
    to_decimal "1,2$3" = some 123 ∧
    to_decimal "$$5" = some 5 ∧
    to_decimal ",5," = some 5 ∧
    to_decimal "1,000.2,5" = some (4001 / 4) ∧
    to_decimal "$-5$" = some (-5) := by
  refine ⟨?_, ?_, ?_, ?_, ?_⟩
  · have h : to_decimal "1,2$3" =
        some ((1 : ℚ) * ((123 : ℕ) : ℚ) * (10 : ℚ) ^ ((0 : ℤ) - ((0 : ℕ) : ℤ))) := by
      rfl
    rw [h]
    norm_num
  · have h : to_decimal "$$5" =
        some ((1 : ℚ) * ((5 : ℕ) : ℚ) * (10 : ℚ) ^ ((0 : ℤ) - ((0 : ℕ) : ℤ))) := by
      rfl
    rw [h]
    norm_num
  · have h : to_decimal ",5," =
        some ((1 : ℚ) * ((5 : ℕ) : ℚ) * (10 : ℚ) ^ ((0 : ℤ) - ((0 : ℕ) : ℤ))) := by
      rfl
    rw [h]
    norm_num
  · have h : to_decimal "1,000.2,5" =
        some ((1 : ℚ) * ((100025 : ℕ) : ℚ) * (10 : ℚ) ^ ((0 : ℤ) - ((2 : ℕ) : ℤ))) := by
      rfl
    rw [h]
    norm_num
  · have h : to_decimal "$-5$" =
        some ((-1 : ℚ) * ((5 : ℕ) : ℚ) * (10 : ℚ) ^ ((0 : ℤ) - ((0 : ℕ) : ℤ))) := by
      rfl
    rw [h]
    norm_num

end BillSplit
